import Mathlib

/-!
Verification of the retrieval-pipeline core of the layer_ai repository
(src/utils.py and src/rag.py) against its natural-language specification.

Texts are embedded as `List Char` (Python `str`), file contents as
`List (Fin 256)` (Python `bytes`), and the mutable `RAGPipeline` object
together with its two on-disk artifacts as explicit state records threaded
through the translated operations.  Chunking (`split_text`) contains a
`while` loop with no structural termination measure, so it is embedded with
an explicit fuel parameter; `none` means the fuel ran out, and theorems about
runs of the loop are stated relative to a `some` result.
-/

/-! ## Python string primitives -/

/-- Whitespace recognised by Python `str.split()` / `str.strip()` / `str.isspace()`:
ASCII whitespace, the C1 separators, and the Unicode space separators. -/
def pyIsSpace (c : Char) : Bool :=
  let n := c.toNat
  n == 32 || (9 ≤ n && n ≤ 13) || (28 ≤ n && n ≤ 31) || n == 133 || n == 160 ||
  n == 0x1680 || (0x2000 ≤ n && n ≤ 0x200A) || n == 0x2028 || n == 0x2029 ||
  n == 0x202F || n == 0x205F || n == 0x3000

/-- Python `str.strip()`: remove leading and trailing whitespace. -/
def pyStrip (xs : List Char) : List Char :=
  ((xs.dropWhile pyIsSpace).reverse.dropWhile pyIsSpace).reverse

/-- Python slicing `s[a:b]` with possibly negative `int` bounds:
a negative bound counts from the end, and both bounds are clamped to `[0, len]`. -/
def pySlice (xs : List Char) (a b : Int) : List Char :=
  (xs.take (if b < 0 then max ((xs.length : Int) + b) 0 else min b (xs.length : Int)).toNat).drop
    (if a < 0 then max ((xs.length : Int) + a) 0 else min a (xs.length : Int)).toNat

/-- Python indexing `xs[i]` with a possibly negative `int` index; `none` models
an `IndexError`. -/
def pyGet (xs : List α) (i : Int) : Option α :=
  if 0 ≤ i then xs.get? i.toNat
  else if (-i).toNat ≤ xs.length then xs.get? (xs.length - (-i).toNat) else none

/-- Python `str.split()` (no separator): split on runs of whitespace, dropping
empty pieces.  The accumulator holds the current word reversed. -/
def pySplitAux : List Char → List Char → List (List Char)
  | [], cur => if cur.isEmpty then [] else [cur.reverse]
  | c :: rest, cur =>
    if pyIsSpace c then
      if cur.isEmpty then pySplitAux rest [] else cur.reverse :: pySplitAux rest []
    else pySplitAux rest (c :: cur)

/-! ## utils.py : clean_text -/

/-- The character class `\w` of Python `re` in Unicode mode, modelled over the
repertoire relevant to this corpus: ASCII alphanumerics, underscore, and the
Cyrillic block. -/
def pyIsWordChar (c : Char) : Bool :=
  c.isAlphanum || c == '_' || (0x400 ≤ c.toNat && c.toNat ≤ 0x4FF)

/-- The allow-list of `clean_text`'s regular expression
`[^\w\s\.\,\!\?\;\:\-\(\)\[\]\"\'«»]`: a character survives the substitution
iff it is a word character, whitespace, or one of the listed punctuation marks. -/
def allowedChar (c : Char) : Bool :=
  pyIsWordChar c || pyIsSpace c ||
  c ∈ ['.', ',', '!', '?', ';', ':', '-', '(', ')', '[', ']', '"', '\'', '«', '»']

/-- utils.clean_text: collapse whitespace runs via `' '.join(text.split())`,
then delete every character outside the allow-list. -/
def clean_text (t : List Char) : List Char :=
  (List.intercalate [' '] (pySplitAux t [])).filter allowedChar

/-! ## utils.py : split_text -/

/-- The sentence-ending characters of `split_text`. -/
def sentenceEnding (c : Char) : Bool :=
  c == '.' || c == '!' || c == '?' || c == '\n'

/-- The back/forward scan of `split_text`:
`for i in range(max(0, end - 200), min(len(text), end + 100))`, returning
`i + 1` for the first `i` with `text[i]` a sentence ending and
`i > start + chunk_size // 2`, else the unmodified `end`. -/
def findBreak (text : List Char) (cs : Nat) (start e0 : Int) : Int :=
  match (List.range' (max 0 (e0 - 200)).toNat
      ((min (text.length : Int) (e0 + 100) - max 0 (e0 - 200)).toNat)).find?
      (fun i => sentenceEnding (text.getD i ' ') && decide (start + (cs : Int) / 2 < (i : Int))) with
  | some i => (i : Int) + 1
  | none => e0

/-- The chunk end chosen by one iteration of the `split_text` loop: the
sentence-boundary scan is applied only while `end < len(text)`. -/
def stepEnd (text : List Char) (cs : Nat) (start : Int) : Int :=
  if start + (cs : Int) < (text.length : Int) then findBreak text cs start (start + (cs : Int))
  else start + (cs : Int)

/-- One iteration of the `while` loop of `split_text`: compute the chunk end,
extract and strip the chunk `text[start:end]`, and step `start` to
`end - overlap`.  Returns the stripped chunk and the new start. -/
def splitStep (text : List Char) (cs ov : Nat) (start : Int) : List Char × Int :=
  (pyStrip (pySlice text start (stepEnd text cs start)), stepEnd text cs start - (ov : Int))

/-- The `while start < len(text)` loop of `split_text`, with fuel.  Empty
chunks (after stripping) are dropped; `none` means the fuel was exhausted,
i.e. the loop had not yet terminated. -/
def splitLoop (text : List Char) (cs ov : Nat) : Nat → Int → List (List Char) → Option (List (List Char))
  | 0, _, _ => none
  | fuel + 1, start, acc =>
    if start < (text.length : Int) then
      let c := splitStep text cs ov start
      splitLoop text cs ov fuel c.2 (if c.1.isEmpty then acc else acc ++ [c.1])
    else some acc

/-- utils.split_text: texts no longer than `chunk_size` are returned whole
(unstripped); otherwise the chunk-building loop runs from `start = 0`. -/
def split_text (fuel : Nat) (text : List Char) (cs ov : Nat) : Option (List (List Char)) :=
  if text.length ≤ cs then some [text] else splitLoop text cs ov fuel 0 []

/-! ## utils.py : load_law_texts

File contents are byte strings (`List (Fin 256)`); the four codecs tried by the
loader — `utf-8`, `cp1251`, `windows-1251` (an alias of `cp1251`), `latin-1` —
are embedded as decoders from bytes to text, `none` modelling a
`UnicodeDecodeError`. -/

/-- A UTF-8 continuation byte `0x80..0xBF`. -/
def isCont (b : Fin 256) : Bool := 0x80 ≤ b.val && b.val ≤ 0xBF

/-- Decode one scalar from a strict UTF-8 stream: the first byte plus the
remaining bytes, returning the character and the unconsumed rest.  Overlong
forms, surrogates and values above `U+10FFFF` are rejected, as in Python's
`utf-8` codec. -/
def utf8DecodeOne (b : Fin 256) (rest : List (Fin 256)) : Option (Char × List (Fin 256)) :=
  if b.val < 0x80 then some (Char.ofNat b.val, rest)
  else if b.val < 0xC2 then none
  else if b.val ≤ 0xDF then
    match rest with
    | b2 :: r =>
      if isCont b2 then some (Char.ofNat ((b.val - 0xC0) * 0x40 + (b2.val - 0x80)), r)
      else none
    | [] => none
  else if b.val ≤ 0xEF then
    match rest with
    | b2 :: b3 :: r =>
      if (if b.val == 0xE0 then 0xA0 else 0x80) ≤ b2.val &&
          b2.val ≤ (if b.val == 0xED then 0x9F else 0xBF) && isCont b3 then
        some (Char.ofNat ((b.val - 0xE0) * 0x1000 + (b2.val - 0x80) * 0x40 + (b3.val - 0x80)), r)
      else none
    | _ => none
  else if b.val ≤ 0xF4 then
    match rest with
    | b2 :: b3 :: b4 :: r =>
      if (if b.val == 0xF0 then 0x90 else 0x80) ≤ b2.val &&
          b2.val ≤ (if b.val == 0xF4 then 0x8F else 0xBF) && isCont b3 && isCont b4 then
        some (Char.ofNat ((b.val - 0xF0) * 0x40000 + (b2.val - 0x80) * 0x1000 +
          (b3.val - 0x80) * 0x40 + (b4.val - 0x80)), r)
      else none
    | _ => none
  else none

/-- The scalar-by-scalar UTF-8 decoding loop.  The fuel only bounds the number
of scalars; `utf8Decode` supplies `bs.length`, which always suffices because
every scalar consumes at least one byte, so the `0`-fuel clause with a
nonempty stream is unreachable. -/
def utf8DecodeFuel : Nat → List (Fin 256) → Option (List Char)
  | _, [] => some []
  | 0, _ :: _ => none
  | fuel + 1, b :: rest =>
    match utf8DecodeOne b rest with
    | none => none
    | some (c, r) => (utf8DecodeFuel fuel r).map (c :: ·)

/-- Decode a strict UTF-8 byte string, as Python's `utf-8` codec does
(`none` models a `UnicodeDecodeError`). -/
def utf8Decode (bs : List (Fin 256)) : Option (List Char) :=
  utf8DecodeFuel bs.length bs

/-- The upper half (`0x80..0xBF`) of the `cp1251` code page, as mapped by
Python's codec; `none` marks the single undefined byte `0x98`. -/
def cp1251Table : List (Option Nat) :=
  [some 0x402, some 0x403, some 0x201A, some 0x453, some 0x201E, some 0x2026,
   some 0x2020, some 0x2021, some 0x20AC, some 0x2030, some 0x409, some 0x2039,
   some 0x40A, some 0x40C, some 0x40B, some 0x40F, some 0x452, some 0x2018,
   some 0x2019, some 0x201C, some 0x201D, some 0x2022, some 0x2013, some 0x2014,
   none, some 0x2122, some 0x459, some 0x203A, some 0x45A, some 0x45C,
   some 0x45B, some 0x45F, some 0xA0, some 0x40E, some 0x45E, some 0x408,
   some 0xA4, some 0x490, some 0xA6, some 0xA7, some 0x401, some 0xA9,
   some 0x404, some 0xAB, some 0xAC, some 0xAD, some 0xAE, some 0x407,
   some 0xB0, some 0xB1, some 0x406, some 0x456, some 0x491, some 0xB5,
   some 0xB6, some 0xB7, some 0x451, some 0x2116, some 0x454, some 0xBB,
   some 0x458, some 0x405, some 0x455, some 0x457]

/-- Decode one byte of `cp1251` (alias `windows-1251`): ASCII below `0x80`,
the Cyrillic block `А..я` contiguously at `0xC0..0xFF`, a table in between. -/
def cp1251Char (b : Fin 256) : Option Char :=
  if b.val < 0x80 then some (Char.ofNat b.val)
  else if 0xC0 ≤ b.val then some (Char.ofNat (0x410 + (b.val - 0xC0)))
  else
    match cp1251Table.get? (b.val - 0x80) with
    | some (some cp) => some (Char.ofNat cp)
    | _ => none

/-- Decode a `cp1251` byte string; one character per byte, failing on any
undefined byte. -/
def cp1251Decode (bs : List (Fin 256)) : Option (List Char) :=
  bs.mapM cp1251Char

/-- Decode `latin-1`: total, one character per byte. -/
def latin1Decode (bs : List (Fin 256)) : List Char :=
  bs.map (fun b => Char.ofNat b.val)

/-- The encoding-fallback chain of `load_law_texts`. -/
def tryEncodings (bs : List (Fin 256)) : Option (List Char) :=
  match utf8Decode bs with
  | some c => some c
  | none =>
    match cp1251Decode bs with
    | some c => some c
    | none =>
      match cp1251Decode bs with
      | some c => some c
      | none => some (latin1Decode bs)

/-- Filename extension test standing for one `glob` pattern `*.ext`. -/
def hasExt (nm ext : List Char) : Bool := List.isSuffixOf ext nm

/-- `".txt"` as a character list. -/
def txtExt : List Char := ['.', 't', 'x', 't']

/-- `".md"` as a character list. -/
def mdExt : List Char := ['.', 'm', 'd']

/-- `".rtf"` as a character list. -/
def rtfExt : List Char := ['.', 'r', 't', 'f']

/-- The per-file body of `load_law_texts`: first successful decode of the
encoding chain, kept only `if content:` — i.e. only when the decoded text is a
nonempty string. -/
def loadFile (file : List Char × List (Fin 256)) : Option (List Char × List Char) :=
  match tryEncodings file.2 with
  | some content => if content.isEmpty then none else some (file.1, content)
  | none => none

/-- utils.load_law_texts over a directory listing of `(filename, bytes)`
pairs: one `glob` pass per supported extension (`*.txt`, `*.md`, `*.rtf`, in
that order), each matched file decoded by the encoding chain and kept when
the content is nonempty.  The filesystem side (absolute paths, creating a
missing directory, `IOError` logging) has no bearing on the returned list and
is not modelled. -/
def load_law_texts (files : List (List Char × List (Fin 256))) :
    List (List Char × List Char) :=
  (files.filter (fun f => hasExt f.1 txtExt) ++ files.filter (fun f => hasExt f.1 mdExt) ++
    files.filter (fun f => hasExt f.1 rtfExt)).filterMap loadFile

/-! ## rag.py : data model -/

/-- One metadata record appended per chunk by `RAGPipeline.build_index`
(the dict with keys `source`, `chunk_id`, `total_chunks`, `char_count`). -/
structure Meta where
  source : List Char
  chunk_id : Nat
  total_chunks : Nat
  char_count : Nat
deriving DecidableEq, Repr

/-- A `faiss.IndexFlatIP` over an abstract vector type `V`: the dimension it
was constructed with and the stored vectors in insertion order (`ntotal` is
`vecs.length`).  `V` abstracts the float matrix rows; inner products are
supplied separately where search needs them. -/
structure FaissIndex (V : Type) where
  dim : Nat
  vecs : List V
deriving DecidableEq

/-- A loaded `SentenceTransformer`: a per-text embedding map `f` (the library
embeds batches order-preservingly, one vector per input) together with a
failure predicate `fails` modelling the exceptions `encode` may raise on a
given batch (model crash, OOM). -/
structure EncoderModel (V : Type) where
  f : List Char → V
  fails : List (List Char) → Bool

/-- `encoder.encode(texts)`: `none` when the call raises, otherwise one
vector per input text, in order. -/
def encodeBatch (enc : EncoderModel V) (texts : List (List Char)) : Option (List V) :=
  if enc.fails texts then none else some (texts.map enc.f)

/-- The mutable state of a `RAGPipeline` object. -/
structure RAGPipeline (V : Type) where
  encoder : Option (EncoderModel V)
  index : Option (FaissIndex V)
  chunks : List (List Char)
  chunk_metadata : List Meta

/-- `RAGPipeline.__init__`. -/
def RAGPipeline.init (V : Type) : RAGPipeline V :=
  { encoder := none, index := none, chunks := [], chunk_metadata := [] }

/-- The two persisted artifacts, `data/faiss.index` and
`data/laws_chunks.pkl`; `none` means missing or unreadable (a corrupt or
truncated file, whose read raises). -/
structure Disk (V : Type) where
  indexFile : Option (FaissIndex V)
  chunksFile : Option (List (List Char) × List Meta)
deriving DecidableEq

/-- The ambient conditions a `build_index` / `_load_existing_index` call runs
under: module availability flags, the outcome of constructing a
`SentenceTransformer` (primary or fallback, `none` if both raise),
`faiss.normalize_L2` on one row, the embedding dimension read from a row
(`embeddings.shape[1]`), and injection flags for the exceptions the three
`try` blocks of the build path catch. -/
structure Env (V : Type) where
  stAvailable : Bool
  faissAvailable : Bool
  loadEncoderResult : Option (EncoderModel V)
  normalize : V → V
  dimOf : V → Nat
  faissBuildOk : Bool
  writeIndexOk : Bool
  writeChunksOk : Bool

/-- `RAGPipeline._load_encoder`: fail when the library is missing; keep an
already-loaded encoder; otherwise store and return the freshly constructed
one (with `none` modelling failure of both primary and fallback model). -/
def loadEncoderStep (env : Env V) (p : RAGPipeline V) :
    Option (EncoderModel V × RAGPipeline V) :=
  if !env.stAvailable then none
  else
    match p.encoder with
    | some e => some (e, p)
    | none =>
      match env.loadEncoderResult with
      | some e => some (e, { p with encoder := some e })
      | none => none

/-- `RAGPipeline._load_existing_index`: load the encoder, then
`faiss.read_index`, then the chunks pickle, each failure caught and reported
as `False`.  Note the order: the index is swapped into `self.index` before
the pickle is read, so a failing pickle leaves the new index with the old
chunk lists.  The disk is never written. -/
def loadExistingIndex (env : Env V) (disk : Disk V) (p : RAGPipeline V) :
    Bool × Disk V × RAGPipeline V :=
  match loadEncoderStep env p with
  | none => (false, disk, p)
  | some (_, p1) =>
    match disk.indexFile with
    | none => (false, disk, p1)
    | some idx =>
      let p2 := { p1 with index := some idx }
      match disk.chunksFile with
      | none => (false, disk, p2)
      | some cm => (true, disk, { p2 with chunks := cm.1, chunk_metadata := cm.2 })

/-- utils.get_sample_legal_text: the sample Civil Code excerpt written into
`data_dir` when no documents are found. -/
def get_sample_legal_text : List Char :=
  ("\n    Гражданский кодекс Республики Казахстан\n    \n    Статья 1. Основные начала гражданского законодательства\n    1. Гражданское законодательство основывается на признании равенства участников регулируемых им отношений, неприкосновенности собственности, свободы договора, недопустимости произвольного вмешательства кого-либо в частные дела, необходимости беспрепятственного осуществления гражданских прав, обеспечения восстановления нарушенных прав, их судебной защиты.\n    \n    Статья 2. Отношения, регулируемые гражданским законодательством\n    1. Гражданское законодательство определяет правовое положение участников гражданского оборота, основания возникновения и порядок осуществления права собственности и других вещных прав, исключительных прав на результаты интеллектуальной деятельности (интеллектуальной собственности), регулирует договорные и иные обязательства, а также другие имущественные и связанные с ними личные неимущественные отношения.\n    \n    Статья 3. Гражданское законодательство и нормы международного права\n    1. Если международным договором, ратифицированным Республикой Казахстан, установлены иные правила, чем те, которые предусмотрены гражданским законодательством, то применяются правила международного договора.\n    ").toList

/-- The filename the sample document is written under
(`sample_civil_code.txt`). -/
def sampleName : List Char := "sample_civil_code.txt".toList

/-! ## rag.py : build_index -/

/-- The metadata records appended for one document's chunk list:
`{'source': filename, 'chunk_id': i, 'total_chunks': len(document_chunks),
'char_count': len(chunk)}` for each enumerated chunk. -/
def docMetas (fn : List Char) (dchunks : List (List Char)) : List Meta :=
  dchunks.enum.map (fun ic => ⟨fn, ic.1, dchunks.length, ic.2.length⟩)

/-- The document loop of `build_index`: clean and split each document,
appending its chunks to `self.chunks` and the matching records to
`self.chunk_metadata`.  `none` propagates a `split_text` run that did not
terminate within the fuel. -/
def processDocs (fuel cs ov : Nat) :
    List (List Char × List Char) → Option (List (List Char) × List Meta)
  | [] => some ([], [])
  | (fn, content) :: rest =>
    match split_text fuel (clean_text content) cs ov with
    | none => none
    | some dchunks =>
      match processDocs fuel cs ov rest with
      | none => none
      | some r => some (dchunks ++ r.1, docMetas fn dchunks ++ r.2)

/-- The document list a rebuild actually processes: when `load_law_texts`
finds nothing, the sample document is written into the data directory and the
directory reloaded, which yields exactly the sample document. -/
def effectiveLawTexts (files : List (List Char × List (Fin 256))) :
    List (List Char × List Char) :=
  if (load_law_texts files).isEmpty then [(sampleName, get_sample_legal_text)]
  else load_law_texts files

/-- RAGPipeline.build_index.  Mirrors the source order: availability check;
fast path to `_load_existing_index` when not forcing a rebuild and both
artifact files exist; `_load_encoder`; `load_law_texts` with the sample
document synthesized into the (otherwise untouched) data directory when
nothing loads; `self.chunks`/`self.chunk_metadata` overwritten with the fresh
chunk lists *before* embedding; embedding (its `try` block), index
construction with per-row `normalize_L2` and `add` (its `try` block, entered
with `self.index` swapped to the new index only inside); then
`faiss.write_index` followed by the chunks pickle (the save `try` block —
an index write that succeeded before a failing pickle leaves the index file
replaced and the chunks file truncated by `open('wb')`, modelled as `none`).
Result `none` means `split_text` ran out of fuel (the call never returns). -/
def buildIndex (env : Env V) (disk : Disk V) (p : RAGPipeline V)
    (files : List (List Char × List (Fin 256))) (cs ov : Nat)
    (forceRebuild : Bool) (fuel : Nat) : Option (Bool × Disk V × RAGPipeline V) :=
  if !(env.stAvailable && env.faissAvailable) then some (false, disk, p)
  else if !forceRebuild && disk.indexFile.isSome && disk.chunksFile.isSome then
    some (loadExistingIndex env disk p)
  else
    match loadEncoderStep env p with
    | none => some (false, disk, p)
    | some (enc, p1) =>
      match processDocs fuel cs ov (effectiveLawTexts files) with
      | none => none
      | some cm =>
        let p2 := { p1 with chunks := cm.1, chunk_metadata := cm.2 }
        match encodeBatch enc cm.1 with
        | none => some (false, disk, p2)
        | some embeddings =>
          if !env.faissBuildOk then some (false, disk, p2)
          else
            let idx : FaissIndex V :=
              ⟨(embeddings.head?.map env.dimOf).getD 0, embeddings.map env.normalize⟩
            let p3 := { p2 with index := some idx }
            if !env.writeIndexOk then some (false, disk, p3)
            else if !env.writeChunksOk then
              some (false, { indexFile := some idx, chunksFile := none }, p3)
            else
              some (true, { indexFile := some idx, chunksFile := some (cm.1, cm.2) }, p3)

/-! ## rag.py : search_law -/

/-- One search result dict of `search_law`. -/
structure SearchResult where
  chunk : List Char
  metadata : Meta
  score : ℚ
  rank : Nat
deriving DecidableEq, Repr

/-- The similarity filled into the slots faiss pads when `k` exceeds
`ntotal`: the most negative representable `float32`, standing in for the
sentinel the library reports for absent neighbours. -/
def faissPadScore : ℚ := -(34028234663852886 : ℚ) * 10 ^ 22

/-- Insert into a sorted list, `le x y` meaning `x` may precede `y`. -/
def insSorted (le : α → α → Bool) (x : α) : List α → List α
  | [] => [x]
  | y :: ys => if le x y then x :: y :: ys else y :: insSorted le x ys

/-- Insertion sort by a Boolean comparison. -/
def sortBy (le : α → α → Bool) : List α → List α
  | [] => []
  | x :: xs => insSorted le x (sortBy le xs)

/-- `faiss.IndexFlatIP.search` with one query row: exact inner-product
search returning the `min k ntotal` stored positions by descending score
(ties by lower position — with that total order the sorted sequence is
unique, so any correct sort models the library), followed by slots padded
with index `-1` and the sentinel score, so that exactly `k`
`(index, score)` pairs come back. -/
def faissSearch (ip : V → V → ℚ) (idx : FaissIndex V) (qv : V) (k : Nat) :
    List (Int × ℚ) :=
  let scored := idx.vecs.enum.map (fun iv => ((iv.1 : Int), ip qv iv.2))
  let sorted := sortBy
    (fun a b => decide (b.2 < a.2) || (decide (a.2 = b.2) && decide (a.1 ≤ b.1))) scored
  let top := sorted.take (min k idx.vecs.length)
  top ++ List.replicate (k - top.length) ((-1 : Int), faissPadScore)

/-- The result-assembly loop of `search_law`:
`for i in range(len(indices[0]))`, keeping `idx` only under the guard
`idx < len(self.chunks)` (which a padded `-1` passes), reading
`self.chunks[idx]` and `self.chunk_metadata[idx]` with Python indexing, and
ranking by the loop counter.  `none` models an `IndexError` escaping to the
enclosing `except`. -/
def buildResults (chunks : List (List Char)) (metas : List Meta) :
    List (Int × ℚ) → Nat → Option (List SearchResult)
  | [], _ => some []
  | (idx, score) :: rest, i =>
    if idx < (chunks.length : Int) then
      match pyGet chunks idx, pyGet metas idx with
      | some c, some m =>
        (buildResults chunks metas rest (i + 1)).map (fun rs => ⟨c, m, score, i + 1⟩ :: rs)
      | _, _ => none
    else buildResults chunks metas rest (i + 1)

/-- RAGPipeline.search_law.  Returns the result list and the pipeline state
after the call (the method only reads `self`, so every path returns `p`
itself).  An exception in the `try` block — a failing query embedding or an
`IndexError` while assembling results — yields `[]`, as does the
index-or-encoder-not-loaded guard. -/
def searchLaw (normalize : V → V) (ip : V → V → ℚ) (p : RAGPipeline V)
    (q : List Char) (k : Nat) : List SearchResult × RAGPipeline V :=
  match p.index, p.encoder with
  | some idx, some enc =>
    (match encodeBatch enc [q] with
     | none => []
     | some qembs =>
       match qembs.map normalize with
       | [] => []
       | qv :: _ =>
         match buildResults p.chunks p.chunk_metadata (faissSearch ip idx qv k) 0 with
         | some rs => rs
         | none => [],
     p)
  | _, _ => ([], p)

/-! ## Claim-side definitions

These follow the wording of the specification, for comparison with the
translated code. -/

/-- Concatenation of chunk lists with each chunk's leading `ov`-character
overlap span removed. -/
def dropCat (ov : Nat) (chunks : List (List Char)) : List Char :=
  (chunks.map (List.drop ov)).flatten

/-- The spec's chunk-coverage reading: concatenate the chunks, removing from
every chunk but the first the leading span that overlaps its predecessor
(the configured `overlap` characters). -/
def reconstruct (ov : Nat) : List (List Char) → List Char
  | [] => []
  | c :: rest => c ++ dropCat ov rest

/-- Lengths of the maximal delimiter-free runs of a text (stretches without
sentence-ending punctuation), accumulating the current run. -/
def runLens : List Char → Nat → List Nat
  | [], cur => [cur]
  | c :: rest, cur =>
    if sentenceEnding c then cur :: runLens rest 0 else runLens rest (cur + 1)

/-- The length of the longest delimiter-free run of a text. -/
def maxDelimFreeRun (t : List Char) : Nat := (runLens t 0).foldr max 0

/-! ## C7 : search before build -/

/-- Claim C7: calling `search_law` on a pipeline whose index or encoder is
still `None` (no successful build or load has occurred) returns the empty
list — and, the call being total in the model, no exception. -/
theorem C7_search_before_build (V : Type) (normalize : V → V) (ip : V → V → ℚ)
    (p : RAGPipeline V) (q : List Char) (k : Nat)
    (h : p.index = none ∨ p.encoder = none) :
    searchLaw normalize ip p q k = ([], p) := by
  rcases h with h | h
  · unfold searchLaw
    rw [h]
  · unfold searchLaw
    rw [h]
    cases p.index <;> rfl

/-- Witness for C7 at the freshly initialised pipeline. -/
theorem C7_search_before_build_witness :
    (RAGPipeline.init Nat).index = none ∧
      searchLaw (fun v => v) (fun _ _ => (0 : ℚ)) (RAGPipeline.init Nat) ['q'] 3 =
        ([], RAGPipeline.init Nat) :=
  ⟨rfl, C7_search_before_build Nat (fun v => v) (fun _ _ => 0) (RAGPipeline.init Nat)
    ['q'] 3 (Or.inl rfl)⟩

/-! ## C10 : search is read-only -/

/-- Claim C10: `search_law` leaves the pipeline state — chunks, metadata and
index — exactly as it was, on the success and on every error path.  In the
state-passing embedding this is the statement that the returned state is the
input state. -/
theorem C10_search_readonly (V : Type) (normalize : V → V) (ip : V → V → ℚ)
    (p : RAGPipeline V) (q : List Char) (k : Nat) :
    (searchLaw normalize ip p q k).2 = p := by
  unfold searchLaw
  cases p.index <;> cases p.encoder <;> rfl

/-! ## C3 : k clamping -/

/-- A one-vector pipeline for exercising `search_law` with `k` larger than
the index size. -/
def c3Enc : EncoderModel Nat := ⟨fun _ => 0, fun _ => false⟩

/-- A ready pipeline holding exactly one indexed chunk. -/
def c3Pipeline : RAGPipeline Nat :=
  { encoder := some c3Enc, index := some ⟨1, [5]⟩, chunks := [['x']],
    chunk_metadata := [⟨['a', '.', 't', 'x', 't'], 0, 1, 1⟩] }

/-- Claim C3 is violated by the code: with one indexed chunk and `k = 3`,
`search_law` returns three results, not one — faiss pads the missing
neighbours with index `-1`, the guard `idx < len(self.chunks)` lets `-1`
through, and Python's negative indexing resolves `chunks[-1]` to the last
chunk, so the two padded slots duplicate it at ranks 2 and 3. -/
theorem C3_k_clamping_violated :
    c3Pipeline.chunks.length = 1 ∧
      (searchLaw (fun v => v) (fun _ _ => (0 : ℚ)) c3Pipeline ['q'] 3).1.length = 3 ∧
      (searchLaw (fun v => v) (fun _ _ => (0 : ℚ)) c3Pipeline ['q'] 3).1.map
          (fun r => (r.rank, r.chunk)) = [(1, ['x']), (2, ['x']), (3, ['x'])] := by
  refine ⟨rfl, ?_, ?_⟩ <;> decide

/-! ## C4 : chunker termination -/

/-- An input on which the chunk-building loop of `split_text` never
terminates: a period just past the midpoint of the first chunk together with
a large overlap drives `start` to `-2`, where every further iteration
produces an empty (dropped) chunk and returns `start` to `-2`. -/
def c4Text : List Char := "aaaaaa.aaaaaaaaaaaaaaaaaa".toList

theorem c4_splitStep_fixpoint : splitStep c4Text 10 9 (-2) = ([], -2) := by decide

theorem c4_splitLoop_stuck (fuel : Nat) (acc : List (List Char)) :
    splitLoop c4Text 10 9 fuel (-2) acc = none := by
  induction fuel generalizing acc with
  | zero => rfl
  | succ f ih =>
    rw [splitLoop]
    rw [if_pos (by decide)]
    rw [c4_splitStep_fixpoint]
    exact ih acc

/-- Claim C4 is violated by the code: with `chunk_size = 10` and
`overlap = 9` (which satisfies `0 ≤ overlap < chunk_size)`, `split_text` on
`c4Text` loops forever — no amount of fuel makes the loop return. -/
theorem C4_chunker_termination_violated :
    ¬ ∃ fuel chunks, split_text fuel c4Text 10 9 = some chunks := by
  rintro ⟨fuel, chunks, h⟩
  rw [split_text, if_neg (by decide)] at h
  match fuel with
  | 0 => exact Option.noConfusion h
  | f + 1 =>
    rw [splitLoop, if_pos (by decide)] at h
    have hs : splitStep c4Text 10 9 0 = ("aaaaaa.".toList, -2) := by decide
    rw [hs] at h
    rw [c4_splitLoop_stuck] at h
    exact Option.noConfusion h

/-! ## C5 : chunk size bound -/

/-- A text whose longest delimiter-free run (9 characters) is below the chunk
size 10, yet whose first chunk exceeds the chunk size: the only qualifying
sentence ending lies past `end`, inside the forward extension of the scan
window. -/
def c5Text : List Char := "aaaaa.aaaa.xxxxxxxxx".toList

/-- Claim C5 is violated by the code: on `c5Text` with `chunk_size = 10`,
`overlap = 0`, a produced chunk has 11 > 10 characters although no
delimiter-free run of the source exceeds 10. -/
theorem C5_chunk_bound_violated :
    ((split_text 5 c5Text 10 0).getD []).any (fun c => decide (10 < c.length)) = true ∧
      maxDelimFreeRun c5Text ≤ 10 := by
  refine ⟨?_, ?_⟩ <;> decide

theorem pySlice_length_le (xs : List Char) (a b : Int) (hab : 0 ≤ b ∨ a < 0) :
    (pySlice xs a b).length ≤ (b - a).toNat := by
  unfold pySlice
  simp only [List.length_drop, List.length_take]
  simp only [Int.max_def, Int.min_def, Nat.min_def]
  split_ifs
  all_goals omega

theorem length_dropWhile_le (p : α → Bool) (l : List α) :
    (l.dropWhile p).length ≤ l.length := by
  induction l with
  | nil => simp
  | cons a l ih =>
    rw [List.dropWhile_cons]
    split
    · simp only [List.length_cons]
      omega
    · simp

theorem pyStrip_length_le (xs : List Char) : (pyStrip xs).length ≤ xs.length := by
  unfold pyStrip
  calc ((xs.dropWhile pyIsSpace).reverse.dropWhile pyIsSpace).reverse.length
      = ((xs.dropWhile pyIsSpace).reverse.dropWhile pyIsSpace).length :=
        List.length_reverse _
    _ ≤ (xs.dropWhile pyIsSpace).reverse.length := length_dropWhile_le _ _
    _ = (xs.dropWhile pyIsSpace).length := List.length_reverse _
    _ ≤ xs.length := length_dropWhile_le _ _

theorem findBreak_le (text : List Char) (cs : Nat) (start e0 : Int) :
    findBreak text cs start e0 ≤ e0 + 100 := by
  unfold findBreak
  cases hf : (List.range' (max 0 (e0 - 200)).toNat
      ((min (text.length : Int) (e0 + 100) - max 0 (e0 - 200)).toNat)).find?
      (fun i => sentenceEnding (text.getD i ' ') && decide (start + (cs : Int) / 2 < (i : Int))) with
  | none => simp only []; omega
  | some i =>
    have hm := List.mem_of_find?_eq_some hf
    rw [List.mem_range'_1] at hm
    simp only []
    omega

theorem findBreak_nonneg (text : List Char) (cs : Nat) (start e0 : Int) (h : 0 ≤ e0) :
    0 ≤ findBreak text cs start e0 := by
  unfold findBreak
  cases hf : (List.range' (max 0 (e0 - 200)).toNat
      ((min (text.length : Int) (e0 + 100) - max 0 (e0 - 200)).toNat)).find?
      (fun i => sentenceEnding (text.getD i ' ') && decide (start + (cs : Int) / 2 < (i : Int))) with
  | none => simp only []; omega
  | some i => simp only []; positivity

theorem stepEnd_nonneg (text : List Char) (cs : Nat) (start : Int) (h : 0 ≤ start) :
    0 ≤ stepEnd text cs start := by
  unfold stepEnd
  split
  · exact findBreak_nonneg _ _ _ _ (by omega)
  · omega

theorem stepEnd_le (text : List Char) (cs : Nat) (start : Int) :
    stepEnd text cs start ≤ start + cs + 100 := by
  unfold stepEnd
  have hb := findBreak_le text cs start (start + (cs : Int))
  split <;> omega

theorem splitStep_chunk_le (text : List Char) (cs ov : Nat) (start : Int) :
    (splitStep text cs ov start).1.length ≤ cs + 100 := by
  unfold splitStep
  refine le_trans (pyStrip_length_le _) (le_trans (pySlice_length_le _ _ _ ?_) ?_)
  · rcases lt_or_le start 0 with hs | hs
    · exact Or.inr hs
    · exact Or.inl (stepEnd_nonneg text cs start hs)
  · have hb := stepEnd_le text cs start
    omega

theorem splitLoop_chunk_bound (text : List Char) (cs ov : Nat) :
    ∀ fuel (start : Int) acc chunks, (∀ c ∈ acc, c.length ≤ cs + 100) →
      splitLoop text cs ov fuel start acc = some chunks →
      ∀ c ∈ chunks, c.length ≤ cs + 100 := by
  intro fuel
  induction fuel with
  | zero => intro start acc chunks _ h; exact absurd h (by simp [splitLoop])
  | succ f ih =>
    intro start acc chunks hacc h
    rw [splitLoop] at h
    split at h
    · refine ih _ _ _ ?_ h
      intro c hc
      split at hc
      · exact hacc c hc
      · rcases List.mem_append.mp hc with hc | hc
        · exact hacc c hc
        · rw [List.mem_singleton.mp hc]
          exact splitStep_chunk_le text cs ov start
    · injection h with h
      subst h
      exact hacc

/-- Claim C5, amended: every chunk produced by `split_text` has length at most
`chunk_size + 100` — the boundary scan may run up to 100 characters past the
nominal chunk end, so the bound `chunk_size` itself fails (see the
counterexample), but the scan window ends at `end + 100` and a chunk can never
exceed that, delimiter-free runs or not. -/
theorem C5_chunk_bound_amended (fuel : Nat) (text : List Char) (cs ov : Nat)
    (chunks : List (List Char)) (h : split_text fuel text cs ov = some chunks) :
    ∀ c ∈ chunks, c.length ≤ cs + 100 := by
  rw [split_text] at h
  split at h
  · injection h with h
    subst h
    intro c hc
    rw [List.mem_singleton.mp hc]
    omega
  · exact splitLoop_chunk_bound text cs ov fuel 0 [] chunks (by simp) h

/-- Witness for the amended C5 on a concrete three-chunk run. -/
theorem C5_chunk_bound_amended_witness :
    split_text 10 "abcdef".toList 3 1 =
        some ["abc".toList, "cde".toList, "ef".toList] ∧
      ("abc".toList).length ≤ 3 + 100 :=
  ⟨by decide,
    C5_chunk_bound_amended 10 "abcdef".toList 3 1
      ["abc".toList, "cde".toList, "ef".toList] (by decide) "abc".toList (by decide)⟩

/-! ## C6 : chunk coverage -/

/-- A text on which stripping loses the boundary whitespace: with
`chunk_size = 5`, `overlap = 0`, the first chunk `"aaaa "` is stripped to
`"aaaa"`, so concatenation yields `"aaaabbbb"`, not the input. -/
def c6Text : List Char := "aaaa bbbb".toList

/-- Claim C6 is violated by the code: the chunks are whitespace-stripped, so a
space at a chunk boundary is dropped and concatenation (here with
`overlap = 0`, so no leading spans are removed at all) does not reconstruct
the input. -/
theorem C6_chunk_coverage_violated :
    split_text 5 c6Text 5 0 = some ["aaaa".toList, "bbbb".toList] ∧
      reconstruct 0 ["aaaa".toList, "bbbb".toList] ≠ c6Text := by
  refine ⟨?_, ?_⟩ <;> decide

theorem dropWhile_of_all_neg (p : α → Bool) (l : List α) (h : ∀ c ∈ l, p c = false) :
    l.dropWhile p = l := by
  cases l with
  | nil => rfl
  | cons a l => simp [List.dropWhile_cons, h a (List.mem_cons_self a l)]

theorem pyStrip_no_space (xs : List Char) (h : ∀ c ∈ xs, pyIsSpace c = false) :
    pyStrip xs = xs := by
  unfold pyStrip
  rw [dropWhile_of_all_neg _ _ h]
  rw [dropWhile_of_all_neg _ _ (fun c hc => h c (List.mem_reverse.mp hc))]
  exact List.reverse_reverse xs

theorem mem_pySlice (xs : List Char) (a b : Int) (c : Char) (h : c ∈ pySlice xs a b) :
    c ∈ xs := by
  unfold pySlice at h
  exact (List.take_sublist _ _).mem ((List.drop_sublist _ _).mem h)

theorem pySlice_take_drop (xs : List Char) (a b : Int) (ha : 0 ≤ a) (hb : 0 ≤ b) :
    pySlice xs a b = (xs.take (min b (xs.length : Int)).toNat).drop a.toNat := by
  unfold pySlice
  rw [if_neg (by omega), if_neg (by omega)]
  rcases le_or_lt a (xs.length : Int) with h | h
  · rw [min_eq_left h]
  · have hl1 : (xs.take (min b (xs.length : Int)).toNat).length ≤ (min a (xs.length : Int)).toNat := by
      simp only [List.length_take]
      omega
    have hl2 : (xs.take (min b (xs.length : Int)).toNat).length ≤ a.toNat := by
      simp only [List.length_take]
      omega
    rw [List.drop_eq_nil_of_le hl1, List.drop_eq_nil_of_le hl2]

theorem stepEnd_gt_start (text : List Char) (cs : Nat) (start : Int) (h1 : 0 < cs) :
    start < stepEnd text cs start := by
  unfold stepEnd
  split
  · unfold findBreak
    cases hf : (List.range' (max 0 (start + (cs : Int) - 200)).toNat
        ((min (text.length : Int) (start + (cs : Int) + 100) - max 0 (start + (cs : Int) - 200)).toNat)).find?
        (fun i => sentenceEnding (text.getD i ' ') &&
          decide (start + (cs : Int) / 2 < (i : Int))) with
    | none => simp only []; omega
    | some i =>
      have hp := List.find?_some hf
      rw [Bool.and_eq_true] at hp
      have := of_decide_eq_true hp.2
      simp only []
      omega
  · omega

theorem find?_range'_min (p : Nat → Bool) :
    ∀ (k a i : Nat), i ∈ List.range' a k → p i = true →
      ∃ x, (List.range' a k).find? p = some x ∧ p x = true ∧
        x ∈ List.range' a k ∧ x ≤ i := by
  intro k
  induction k with
  | zero =>
    intro a i hi _
    simp [List.range'] at hi
  | succ k ih =>
    intro a i hi hp
    rw [List.range'_succ] at hi ⊢
    cases hpa : p a with
    | true =>
      refine ⟨a, ?_, hpa, List.mem_cons_self _ _, ?_⟩
      · rw [List.find?_cons_of_pos _ hpa]
      · rcases List.mem_cons.mp hi with rfl | hi2
        · exact le_rfl
        · have := (List.mem_range'_1.mp hi2).1
          omega
    | false =>
      rcases List.mem_cons.mp hi with rfl | hi2
      · rw [hpa] at hp
        exact absurd hp (by simp)
      · obtain ⟨x, hf, hpx, hmem, hle⟩ := ih (a + 1) i hi2 hp
        exact ⟨x, by rw [List.find?_cons_of_neg _ (by simp [hpa])]; exact hf, hpx,
          List.mem_cons_of_mem _ hmem, hle⟩

theorem splitLoop_stall_diverges (text : List Char) (cs ov : Nat)
    (hco1 : cs ≤ ov + 199) (hco2 : cs / 2 + 2 ≤ ov) (hovcs : ov < cs) :
    ∀ i : Nat, sentenceEnding (text.getD i ' ') = true →
      (i : Int) + 1 - (ov : Int) + (cs : Int) < (text.length : Int) →
      ∀ fuel acc, splitLoop text cs ov fuel ((i : Int) + 1 - (ov : Int)) acc = none := by
  intro i
  induction i using Nat.strong_induction_on with
  | _ i IH =>
    intro hse hn fuel
    induction fuel with
    | zero => intro acc; rfl
    | succ f ihf =>
      intro acc
      have himem : i ∈ List.range'
          (max 0 ((i : Int) + 1 - (ov : Int) + (cs : Int) - 200)).toNat
          ((min (text.length : Int) ((i : Int) + 1 - (ov : Int) + (cs : Int) + 100) -
            max 0 ((i : Int) + 1 - (ov : Int) + (cs : Int) - 200)).toNat) := by
        rw [List.mem_range'_1]
        constructor
        · omega
        · omega
      have hpi : (fun j => sentenceEnding (text.getD j ' ') &&
          decide ((i : Int) + 1 - (ov : Int) + (cs : Int) / 2 < (j : Int))) i = true := by
        rw [Bool.and_eq_true]
        exact ⟨hse, decide_eq_true (by omega)⟩
      obtain ⟨i₀, hf, hp₀, hmem₀, hle₀⟩ :=
        find?_range'_min (fun j => sentenceEnding (text.getD j ' ') &&
          decide ((i : Int) + 1 - (ov : Int) + (cs : Int) / 2 < (j : Int))) _ _ i himem hpi
      have hstep : stepEnd text cs ((i : Int) + 1 - (ov : Int)) = (i₀ : Int) + 1 := by
        unfold stepEnd
        rw [if_pos (by omega)]
        unfold findBreak
        rw [hf]
      rw [splitLoop]
      rw [if_pos (by omega)]
      simp only []
      have h2 : (splitStep text cs ov ((i : Int) + 1 - (ov : Int))).2 =
          (i₀ : Int) + 1 - (ov : Int) := by
        unfold splitStep
        rw [hstep]
      rw [h2]
      rcases lt_or_eq_of_le hle₀ with hlt | heq
      · refine IH i₀ hlt ?_ (by omega) f _
        rw [Bool.and_eq_true] at hp₀
        exact hp₀.1
      · rw [heq]
        exact ihf _

theorem stepEnd_stall_diverges (text : List Char) (cs ov : Nat)
    (hovcs : ov < cs) (start : Int)
    (hstall : stepEnd text cs start < start + (ov : Int))
    (hlt : stepEnd text cs start < (text.length : Int)) :
    ∀ fuel acc, splitLoop text cs ov fuel (stepEnd text cs start - (ov : Int)) acc = none := by
  rcases lt_or_le (start + (cs : Int)) (text.length : Int) with hsc | hsc
  · have hfb : stepEnd text cs start = findBreak text cs start (start + (cs : Int)) := by
      unfold stepEnd
      rw [if_pos hsc]
    cases hfind : (List.range' (max 0 (start + (cs : Int) - 200)).toNat
        ((min (text.length : Int) (start + (cs : Int) + 100) -
          max 0 (start + (cs : Int) - 200)).toNat)).find?
        (fun i => sentenceEnding (text.getD i ' ') &&
          decide (start + (cs : Int) / 2 < (i : Int))) with
    | none =>
      have hval : stepEnd text cs start = start + (cs : Int) := by
        rw [hfb]
        unfold findBreak
        rw [hfind]
      rw [hval] at hstall
      omega
    | some i₀ =>
      have hval : stepEnd text cs start = (i₀ : Int) + 1 := by
        rw [hfb]
        unfold findBreak
        rw [hfind]
      have hp₀ := List.find?_some hfind
      rw [Bool.and_eq_true] at hp₀
      have hmid := of_decide_eq_true hp₀.2
      have hmem₀ := List.mem_of_find?_eq_some hfind
      rw [List.mem_range'_1] at hmem₀
      rw [hval] at hstall hlt ⊢
      have hco2 : cs / 2 + 2 ≤ ov := by omega
      have hco1 : cs ≤ ov + 199 := by omega
      exact fun fuel acc =>
        splitLoop_stall_diverges text cs ov hco1 hco2 hovcs i₀ hp₀.1 (by omega) fuel acc
  · have hval : stepEnd text cs start = start + (cs : Int) := by
      unfold stepEnd
      rw [if_neg (by omega)]
    rw [hval] at hstall
    omega

theorem dropCat_cons (ov : Nat) (c : List Char) (l : List (List Char)) :
    dropCat ov (c :: l) = c.drop ov ++ dropCat ov l := by
  simp [dropCat]

theorem splitLoop_coverage (text : List Char) (cs ov : Nat) (h1 : 0 < cs)
    (h2 : ov < cs) (hcs : cs < text.length) (hw : ∀ c ∈ text, pyIsSpace c = false) :
    ∀ fuel (start : Int) acc chunks, 0 ≤ start →
      splitLoop text cs ov fuel start acc = some chunks →
      ∃ rest, chunks = acc ++ rest ∧
        dropCat ov rest =
          text.drop (min (start + (ov : Int)) (text.length : Int)).toNat := by
  intro fuel
  induction fuel with
  | zero =>
    intro start acc chunks _ h
    exact absurd h (by simp [splitLoop])
  | succ f ih =>
    intro start acc chunks hs h
    rw [splitLoop] at h
    split at h
    case isTrue hlt =>
      simp only [] at h
      have hgt0 : start < stepEnd text cs start := stepEnd_gt_start text cs start h1
      have he0 : 0 ≤ stepEnd text cs start := by omega
      have hslice : pySlice text start (stepEnd text cs start) =
          (text.take (min (stepEnd text cs start) (text.length : Int)).toNat).drop start.toNat :=
        pySlice_take_drop text start (stepEnd text cs start) hs he0
      have hchunk : (splitStep text cs ov start).1 =
          (text.take (min (stepEnd text cs start) (text.length : Int)).toNat).drop start.toNat := by
        show pyStrip (pySlice text start (stepEnd text cs start)) = _
        rw [hslice]
        exact pyStrip_no_space _ (fun c hc =>
          hw c ((List.take_sublist _ _).mem ((List.drop_sublist _ _).mem hc)))
      have hne : (splitStep text cs ov start).1 ≠ [] := by
        rw [hchunk]
        intro hnil
        have hlen := congrArg List.length hnil
        simp only [List.length_drop, List.length_take, List.length_nil] at hlen
        omega
      rw [if_neg (by simp only [List.isEmpty_iff]; exact hne)] at h
      have hs2 : (splitStep text cs ov start).2 = stepEnd text cs start - (ov : Int) := rfl
      rw [hs2] at h
      rcases le_or_lt (start + (ov : Int)) (stepEnd text cs start) with hgeov | hstall
      · obtain ⟨rest', hchunks, hdrop⟩ :=
          ih (stepEnd text cs start - (ov : Int)) (acc ++ [(splitStep text cs ov start).1])
            chunks (by omega) h
        have heq : stepEnd text cs start - (ov : Int) + (ov : Int) = stepEnd text cs start := by
          omega
        rw [heq] at hdrop
        refine ⟨(splitStep text cs ov start).1 :: rest', by rw [hchunks]; simp, ?_⟩
        rw [dropCat_cons, hdrop, hchunk, List.drop_drop]
        rcases le_or_lt (start + (ov : Int)) (text.length : Int) with hc | hc
        · have hk : (min (start + (ov : Int)) (text.length : Int)).toNat = start.toNat + ov := by
            omega
          rw [hk]
          conv_rhs =>
            rw [← List.take_append_drop
              (min (stepEnd text cs start) (text.length : Int)).toNat text]
          rw [List.drop_append_of_le_length (by simp only [List.length_take]; omega)]
        · have hk : (min (start + (ov : Int)) (text.length : Int)).toNat = text.length := by
            omega
          have hm : (min (stepEnd text cs start) (text.length : Int)).toNat = text.length := by
            omega
          rw [hk, hm, List.drop_length,
            List.drop_eq_nil_of_le (by simp only [List.length_take]; omega)]
          rfl
      · rcases lt_or_le (stepEnd text cs start) (text.length : Int) with hel | hel
        · rw [stepEnd_stall_diverges text cs ov h2 start hstall hel f _] at h
          exact Option.noConfusion h
        · obtain ⟨rest', hchunks, hdrop⟩ :=
            ih (stepEnd text cs start - (ov : Int)) (acc ++ [(splitStep text cs ov start).1])
              chunks (by omega) h
          have heq : stepEnd text cs start - (ov : Int) + (ov : Int) = stepEnd text cs start := by
            omega
          rw [heq] at hdrop
          refine ⟨(splitStep text cs ov start).1 :: rest', by rw [hchunks]; simp, ?_⟩
          rw [dropCat_cons, hdrop, hchunk, List.drop_drop]
          have hm : (min (stepEnd text cs start) (text.length : Int)).toNat = text.length := by
            omega
          have hk : (min (start + (ov : Int)) (text.length : Int)).toNat = text.length := by
            omega
          rw [hm, hk, List.drop_length,
            List.drop_eq_nil_of_le (by simp only [List.length_take]; omega)]
          rfl
    case isFalse hlt =>
      injection h with h
      subst h
      refine ⟨[], by simp, ?_⟩
      have hmin : min (start + (ov : Int)) (text.length : Int) = (text.length : Int) := by
        omega
      rw [hmin, Int.toNat_natCast, List.drop_length]
      rfl

/-- Claim C6, amended: chunks are whitespace-stripped before being collected,
so exact reconstruction can only be claimed when no whitespace sits at a span
boundary; for texts without whitespace and any `overlap < chunk_size`, every
run of `split_text` that terminates reconstructs the input exactly when the
chunks are concatenated after removing each later chunk's leading
`overlap`-character span.  (A loop state whose chunk end regresses below
`start + overlap` never terminates, so terminating runs always telescope.) -/
theorem C6_chunk_coverage_amended (fuel : Nat) (text : List Char) (cs ov : Nat)
    (chunks : List (List Char)) (h1 : 0 < cs) (h2 : ov < cs)
    (hw : ∀ c ∈ text, pyIsSpace c = false)
    (h : split_text fuel text cs ov = some chunks) :
    reconstruct ov chunks = text := by
  rw [split_text] at h
  split at h
  · injection h with h
    subst h
    simp [reconstruct, dropCat]
  · rename_i hlen
    have hcs : cs < text.length := by omega
    match fuel with
    | 0 => exact absurd h (by simp [splitLoop])
    | f + 1 =>
      rw [splitLoop] at h
      rw [if_pos (by omega)] at h
      simp only [] at h
      have hgt0 : (0 : Int) < stepEnd text cs 0 := stepEnd_gt_start text cs 0 h1
      have he0 : 0 ≤ stepEnd text cs 0 := by omega
      rcases le_or_lt ((ov : Int)) (stepEnd text cs 0) with hgeov | hstall
      · have hslice : pySlice text 0 (stepEnd text cs 0) =
            (text.take (min (stepEnd text cs 0) (text.length : Int)).toNat).drop (0 : Int).toNat :=
          pySlice_take_drop text 0 (stepEnd text cs 0) le_rfl he0
        have hchunk : (splitStep text cs ov 0).1 =
            text.take (min (stepEnd text cs 0) (text.length : Int)).toNat := by
          show pyStrip (pySlice text 0 (stepEnd text cs 0)) = _
          rw [hslice]
          rw [pyStrip_no_space _ (fun c hc =>
            hw c ((List.take_sublist _ _).mem ((List.drop_sublist _ _).mem hc)))]
          rfl
        have hne : (splitStep text cs ov 0).1 ≠ [] := by
          rw [hchunk]
          intro hnil
          have hlen2 := congrArg List.length hnil
          simp only [List.length_take, List.length_nil] at hlen2
          omega
        rw [if_neg (by simp only [List.isEmpty_iff]; exact hne)] at h
        have hs2 : (splitStep text cs ov 0).2 = stepEnd text cs 0 - (ov : Int) := rfl
        rw [hs2] at h
        obtain ⟨rest, hchunks, hdrop⟩ :=
          splitLoop_coverage text cs ov h1 h2 hcs hw f (stepEnd text cs 0 - (ov : Int))
            ([] ++ [(splitStep text cs ov 0).1]) chunks (by omega) h
        have heq : stepEnd text cs 0 - (ov : Int) + (ov : Int) = stepEnd text cs 0 := by omega
        rw [heq] at hdrop
        rw [hchunks]
        simp only [List.nil_append, List.singleton_append, reconstruct]
        rw [hdrop, hchunk]
        exact List.take_append_drop _ text
      · have hel : stepEnd text cs 0 < (text.length : Int) := by omega
        have hs2 : (splitStep text cs ov 0).2 = stepEnd text cs 0 - (ov : Int) := rfl
        rw [hs2] at h
        rw [stepEnd_stall_diverges text cs ov h2 0 (by omega) hel f _] at h
        exact Option.noConfusion h

/-- Witness for the amended C6 on a concrete run whose overlap (3) exceeds
half the chunk size (4). -/
theorem C6_chunk_coverage_amended_witness :
    (0 < 4 ∧ 3 < 4 ∧
        split_text 10 "abcdef".toList 4 3 =
          some ["abcd".toList, "bcde".toList, "cdef".toList, "def".toList,
            "ef".toList, "f".toList]) ∧
      reconstruct 3 ["abcd".toList, "bcde".toList, "cdef".toList, "def".toList,
          "ef".toList, "f".toList] = "abcdef".toList :=
  ⟨⟨by decide, by decide, by decide⟩,
    C6_chunk_coverage_amended 10 "abcdef".toList 4 3
      ["abcd".toList, "bcde".toList, "cdef".toList, "def".toList,
        "ef".toList, "f".toList] (by decide) (by decide)
      (by decide) (by decide)⟩


/-! ## C9 : cleaner normalization -/

/-- Claim C9 is violated by the code: a character standing between two spaces
that the allow-list rejects breaks the no-consecutive-whitespace property —
`clean_text "a § b"` first collapses whitespace (a no-op here) and only then
deletes `§`, leaving two adjacent spaces. -/
theorem C9_cleaner_violated :
    clean_text "a § b".toList = ['a', ' ', ' ', 'b'] ∧
      (clean_text "a § b".toList).get? 1 = some ' ' ∧
      (clean_text "a § b".toList).get? 2 = some ' ' ∧
      pyIsSpace ' ' = true := by
  refine ⟨?_, ?_, ?_, ?_⟩ <;> decide

theorem mem_intercalate_space (ws : List (List Char)) (c : Char)
    (h : c ∈ List.intercalate [' '] ws) : c = ' ' ∨ ∃ w ∈ ws, c ∈ w := by
  induction ws with
  | nil => simp [List.intercalate] at h
  | cons w ws ih =>
    cases ws with
    | nil =>
      simp [List.intercalate] at h
      exact Or.inr ⟨w, by simp, h⟩
    | cons w2 ws2 =>
      rw [List.intercalate, List.intersperse_cons_cons, List.flatten_cons,
        List.flatten_cons] at h
      rcases List.mem_append.mp h with h | h
      · exact Or.inr ⟨w, by simp, h⟩
      · rcases List.mem_append.mp h with h | h
        · exact Or.inl (List.mem_singleton.mp h)
        · have h2 : c ∈ List.intercalate [' '] (w2 :: ws2) := by
            rw [List.intercalate]
            exact h
          rcases ih h2 with h3 | ⟨w', hw', hc⟩
          · exact Or.inl h3
          · exact Or.inr ⟨w', by simp [hw'], hc⟩

theorem pySplitAux_no_space (t : List Char) :
    ∀ cur, (∀ c ∈ cur, pyIsSpace c = false) →
      ∀ w ∈ pySplitAux t cur, ∀ c ∈ w, pyIsSpace c = false := by
  induction t with
  | nil =>
    intro cur hcur w hw c hc
    rw [pySplitAux] at hw
    split at hw
    · exact absurd hw (List.not_mem_nil w)
    · rw [List.mem_singleton.mp hw] at hc
      exact hcur c (List.mem_reverse.mp hc)
  | cons a t ih =>
    intro cur hcur w hw c hc
    rw [pySplitAux] at hw
    split at hw
    · split at hw
      · exact ih [] (by simp) w hw c hc
      · rcases List.mem_cons.mp hw with hw | hw
        · rw [hw] at hc
          exact hcur c (List.mem_reverse.mp hc)
        · exact ih [] (by simp) w hw c hc
    · rename_i ha
      refine ih (a :: cur) ?_ w hw c hc
      intro c' hc'
      rcases List.mem_cons.mp hc' with hc' | hc'
      · rw [hc']
        exact Bool.of_not_eq_true ha
      · exact hcur c' hc'

/-- Claim C9, amended: every character of `clean_text`'s output lies in the
allow-list, and the only whitespace character the output can contain is the
single space (the join separator); runs of two or more spaces do occur —
whitespace is collapsed *before* characters are deleted, so removing a
character that stood alone between two words leaves two adjacent spaces (see
the counterexample). -/
theorem C9_cleaner_amended (t : List Char) (c : Char) (h : c ∈ clean_text t) :
    allowedChar c = true ∧ (pyIsSpace c = true → c = ' ') := by
  unfold clean_text at h
  have hf := List.mem_filter.mp h
  refine ⟨hf.2, fun _ => ?_⟩
  rcases mem_intercalate_space _ c hf.1 with hsp | ⟨w, hw, hcw⟩
  · exact hsp
  · have := pySplitAux_no_space t [] (by simp) w hw c hcw
    simp_all

/-- Witness for the amended C9 at a concrete character. -/
theorem C9_cleaner_amended_witness :
    'a' ∈ clean_text "a b".toList ∧
      (allowedChar 'a' = true ∧ (pyIsSpace 'a' = true → 'a' = ' ')) :=
  ⟨by decide, C9_cleaner_amended "a b".toList 'a' (by decide)⟩

/-! ## C8 : loader skip condition -/

/-- An encoder whose `encode` always raises (embedding failure injection). -/
def c2Enc : EncoderModel Nat := ⟨fun _ => 0, fun _ => true⟩

/-- Environment for the failing build: everything available and writable,
but embedding fails. -/
def c2Env : Env Nat := ⟨true, true, some c2Enc, fun v => v, fun _ => 1, true, true, true⟩

/-- The metadata record of the previously built state. -/
def c2OldMeta : Meta := ⟨"old.txt".toList, 0, 1, 1⟩

/-- The previously persisted artifacts. -/
def c2Disk : Disk Nat := ⟨some ⟨1, [9]⟩, some ([['o']], [c2OldMeta])⟩

/-- The previously live pipeline (encoder not yet loaded). -/
def c2Pipe : RAGPipeline Nat := ⟨none, some ⟨1, [9]⟩, [['o']], [c2OldMeta]⟩

/-- The corpus being rebuilt. -/
def c2Files : List (List Char × List (Fin 256)) := [("a.txt".toList, [104, 105])]

/-- Claim C2 is violated by the code: `build_index` assigns
`self.chunks = []` and refills it before embedding, so when embedding fails
the call returns `False` with the on-disk artifacts untouched but the live
in-memory chunk and metadata lists already replaced by the new corpus —
while `self.index` still holds the old index. -/
theorem C2_build_atomicity_violated :
    (buildIndex c2Env c2Disk c2Pipe c2Files 10 2 true 5).map (fun r => r.1) =
        some false ∧
      (buildIndex c2Env c2Disk c2Pipe c2Files 10 2 true 5).map (fun r => r.2.1) =
        some c2Disk ∧
      (buildIndex c2Env c2Disk c2Pipe c2Files 10 2 true 5).map
          (fun r => (r.2.2.chunks, r.2.2.chunk_metadata, r.2.2.index)) =
        some ([['h', 'i']], [⟨"a.txt".toList, 0, 1, 2⟩], some ⟨1, [9]⟩) ∧
      c2Pipe.chunks = [['o']] ∧ c2Pipe.chunk_metadata = [c2OldMeta] := by
  refine ⟨?_, ?_, ?_, ?_, ?_⟩ <;> decide

theorem loadExistingIndex_disk (env : Env V) (disk : Disk V) (p : RAGPipeline V) :
    (loadExistingIndex env disk p).2.1 = disk := by
  unfold loadExistingIndex
  split
  · rfl
  · split
    · rfl
    · split <;> rfl

/-- Claim C2, amended: a failing `build_index` returns `False`, and every
failure that occurs before the save step (missing dependency, encoder-load
failure, a failing fast-path load, embedding failure, index-construction
failure) leaves the persisted artifacts unchanged; the previously live
in-memory chunks and metadata, however, are overwritten at the start of the
rebuild (see the counterexample), and a failure inside the save step itself
can leave the index file replaced with the chunks file destroyed. -/
theorem C2_build_failure_frame (V : Type) (env : Env V) (disk : Disk V)
    (p : RAGPipeline V) (files : List (List Char × List (Fin 256))) (cs ov : Nat)
    (fr : Bool) (fuel : Nat) (disk' : Disk V) (p' : RAGPipeline V)
    (h : buildIndex env disk p files cs ov fr fuel = some (false, disk', p'))
    (hw1 : env.writeIndexOk = true) (hw2 : env.writeChunksOk = true) :
    disk' = disk := by
  unfold buildIndex at h
  split at h
  · simp only [Option.some.injEq, Prod.mk.injEq] at h
    exact h.2.1.symm
  · split at h
    · simp only [Option.some.injEq] at h
      have hd := loadExistingIndex_disk env disk p
      rw [h] at hd
      exact hd
    · split at h
      · simp only [Option.some.injEq, Prod.mk.injEq] at h
        exact h.2.1.symm
      · simp only [] at h
        split at h
        · exact Option.noConfusion h
        · split at h
          · simp only [Option.some.injEq, Prod.mk.injEq] at h
            exact h.2.1.symm
          · split at h
            · simp only [Option.some.injEq, Prod.mk.injEq] at h
              exact h.2.1.symm
            · split at h
              · rename_i hcond
                rw [hw1] at hcond
                simp at hcond
              · split at h
                · rename_i hcond
                  rw [hw2] at hcond
                  simp at hcond
                · simp only [Option.some.injEq, Prod.mk.injEq] at h
                  exact absurd h.1 (by simp)

/-- The pipeline state left behind by the failing concrete build. -/
def c2ResultPipe : RAGPipeline Nat :=
  ⟨some c2Enc, some ⟨1, [9]⟩, [['h', 'i']], [⟨"a.txt".toList, 0, 1, 2⟩]⟩

/-- Witness for the amended C2 at the concrete failing build. -/
theorem C2_build_failure_frame_witness :
    (buildIndex c2Env c2Disk c2Pipe c2Files 10 2 true 5 =
        some (false, c2Disk, c2ResultPipe) ∧
      c2Env.writeIndexOk = true ∧ c2Env.writeChunksOk = true) ∧ c2Disk = c2Disk :=
  ⟨⟨rfl, rfl, rfl⟩,
    C2_build_failure_frame Nat c2Env c2Disk c2Pipe c2Files 10 2 true 5 c2Disk
      c2ResultPipe rfl rfl rfl⟩

/-! ## C1 : positional alignment -/

/-- An encoder that always succeeds (build-path witness). -/
def c1Enc : EncoderModel Nat := ⟨fun _ => 7, fun _ => false⟩

/-- A fully working environment. -/
def c1Env : Env Nat := ⟨true, true, some c1Enc, fun v => v, fun _ => 1, true, true, true⟩

/-- Misaligned artifacts: one stored vector against two persisted chunks —
as left behind, for instance, by a crash between the index write and the
chunks write of a later rebuild. -/
def c1BadDisk : Disk Nat :=
  ⟨some ⟨1, [5]⟩, some ([['a'], ['b']], [⟨['a'], 0, 2, 1⟩, ⟨['b'], 1, 2, 1⟩])⟩

/-- Claim C1 is violated on the load path: `_load_existing_index` performs no
alignment validation, so loading misaligned artifacts succeeds and leaves a
state with two chunks but a one-vector index. -/
theorem C1_positional_alignment_violated :
    (loadExistingIndex c1Env c1BadDisk (RAGPipeline.init Nat)).1 = true ∧
      (loadExistingIndex c1Env c1BadDisk (RAGPipeline.init Nat)).2.2.chunks.length = 2 ∧
      ((loadExistingIndex c1Env c1BadDisk (RAGPipeline.init Nat)).2.2.index.map
          (fun i => i.vecs.length)) = some 1 := by
  refine ⟨?_, ?_, ?_⟩ <;> decide

/-- The claim's "the i-th metadata record describes that same chunk", spelled
out from the record the code builds: the record's `char_count` is the chunk's
length, and the record names a source document of the processed corpus whose
chunk list holds this very chunk at position `chunk_id`, with `total_chunks`
the length of that list. -/
def describesChunk (fuel cs ov : Nat) (docs : List (List Char × List Char))
    (c : List Char) (m : Meta) : Prop :=
  m.char_count = c.length ∧
  ∃ fn content dchunks, (fn, content) ∈ docs ∧
    split_text fuel (clean_text content) cs ov = some dchunks ∧
    m.source = fn ∧ m.total_chunks = dchunks.length ∧
    dchunks.get? m.chunk_id = some c

theorem docMetas_get (fn : List Char) (T : Nat) (full : List (List Char)) :
    ∀ (l : List (List Char)) (n : Nat), (∀ j, l.get? j = full.get? (n + j)) →
      List.Forall₂ (fun c m => Meta.char_count m = c.length ∧ Meta.source m = fn ∧
          Meta.total_chunks m = T ∧ full.get? (Meta.chunk_id m) = some c) l
        ((List.enumFrom n l).map (fun ic => ⟨fn, ic.1, T, ic.2.length⟩)) := by
  intro l
  induction l with
  | nil => intro n _; exact List.Forall₂.nil
  | cons c t ih =>
    intro n hget
    rw [List.enumFrom_cons, List.map_cons]
    refine List.Forall₂.cons ⟨rfl, rfl, rfl, ?_⟩ (ih (n + 1) (fun j => ?_))
    · have h0 := hget 0
      rw [List.get?_cons_zero, Nat.add_zero] at h0
      exact h0.symm
    · have hj := hget (j + 1)
      rw [List.get?_cons_succ] at hj
      have hn : n + (j + 1) = n + 1 + j := by omega
      rw [hn] at hj
      exact hj

theorem describesChunk_mono (fuel cs ov : Nat) (d : List Char × List Char)
    (docs : List (List Char × List Char)) (c : List Char) (m : Meta)
    (h : describesChunk fuel cs ov docs c m) :
    describesChunk fuel cs ov (d :: docs) c m := by
  obtain ⟨h1, fn, content, dchunks, hmem, hsp, hsrc, htot, hget⟩ := h
  exact ⟨h1, fn, content, dchunks, List.mem_cons_of_mem _ hmem, hsp, hsrc, htot, hget⟩

theorem processDocs_describes (fuel cs ov : Nat) :
    ∀ (docs : List (List Char × List Char)) chs ms,
      processDocs fuel cs ov docs = some (chs, ms) →
      List.Forall₂ (describesChunk fuel cs ov docs) chs ms := by
  intro docs
  induction docs with
  | nil =>
    intro chs ms h
    rw [processDocs] at h
    simp only [Option.some.injEq, Prod.mk.injEq] at h
    rw [← h.1, ← h.2]
    exact List.Forall₂.nil
  | cons d rest ih =>
    intro chs ms h
    obtain ⟨fn, content⟩ := d
    rw [processDocs] at h
    cases hsplit : split_text fuel (clean_text content) cs ov with
    | none =>
      rw [hsplit] at h
      simp at h
    | some dchunks =>
      rw [hsplit] at h
      cases hrest : processDocs fuel cs ov rest with
      | none =>
        rw [hrest] at h
        simp at h
      | some r =>
        rw [hrest] at h
        simp only [Option.some.injEq, Prod.mk.injEq] at h
        rw [← h.1, ← h.2]
        refine List.rel_append ?_ ?_
        · refine List.Forall₂.imp (fun a b hab => ?_)
            (docMetas_get fn dchunks.length dchunks dchunks 0
              (fun j => by rw [Nat.zero_add]))
          obtain ⟨h1, hs, ht, hg⟩ := hab
          exact ⟨h1, fn, content, dchunks, List.mem_cons_self _ _, hsplit, hs, ht, hg⟩
        · exact List.Forall₂.imp
            (fun a b hab => describesChunk_mono fuel cs ov (fn, content) rest a b hab)
            (ih r.1 r.2 (by rw [hrest]))

theorem loadEncoderStep_some (env : Env V) (p : RAGPipeline V)
    (enc : EncoderModel V) (p1 : RAGPipeline V)
    (h : loadEncoderStep env p = some (enc, p1)) :
    p1.encoder = some enc ∧ p1.chunks = p.chunks ∧
      p1.chunk_metadata = p.chunk_metadata ∧ p1.index = p.index := by
  unfold loadEncoderStep at h
  split at h
  · exact Option.noConfusion h
  · split at h
    · rename_i e he
      simp only [Option.some.injEq, Prod.mk.injEq] at h
      rw [← h.2, ← h.1]
      exact ⟨he, rfl, rfl, rfl⟩
    · split at h
      · simp only [Option.some.injEq, Prod.mk.injEq] at h
        rw [← h.2, ← h.1]
        exact ⟨rfl, rfl, rfl, rfl⟩
      · exact Option.noConfusion h

/-- Claim C1, amended.  Build path: after a successful rebuild the in-memory
index, chunk list and metadata list are aligned — equal counts, the `i`-th
vector is the normalized embedding of the `i`-th chunk, and the `i`-th
metadata record describes that same chunk: its `char_count` is the chunk's
length, its `source` names the processed document whose chunk list holds the
chunk at position `chunk_id`, and `total_chunks` is that list's length.
Load path:
`_load_existing_index` restores exactly what the artifact files contain,
without validating alignment, so after a successful load the three
collections are aligned only when the artifacts themselves were (see the
counterexample). -/
theorem C1_positional_alignment_amended :
    (∀ (V : Type) (env : Env V) (disk : Disk V) (p : RAGPipeline V)
        (files : List (List Char × List (Fin 256))) (cs ov fuel : Nat)
        (disk' : Disk V) (p' : RAGPipeline V),
      buildIndex env disk p files cs ov true fuel = some (true, disk', p') →
      ∃ enc idx, p'.encoder = some enc ∧ p'.index = some idx ∧
        idx.vecs = p'.chunks.map (fun c => env.normalize (enc.f c)) ∧
        idx.vecs.length = p'.chunks.length ∧
        p'.chunk_metadata.length = p'.chunks.length ∧
        List.Forall₂ (describesChunk fuel cs ov (effectiveLawTexts files))
          p'.chunks p'.chunk_metadata) ∧
    (∀ (V : Type) (env : Env V) (disk : Disk V) (p : RAGPipeline V)
        (b : Bool) (disk' : Disk V) (p' : RAGPipeline V),
      loadExistingIndex env disk p = (b, disk', p') → b = true →
      ∃ idx cks ms, disk.indexFile = some idx ∧ disk.chunksFile = some (cks, ms) ∧
        p'.index = some idx ∧ p'.chunks = cks ∧ p'.chunk_metadata = ms) := by
  constructor
  · intro V env disk p files cs ov fuel disk' p' h
    unfold buildIndex at h
    split at h
    · simp only [Option.some.injEq, Prod.mk.injEq] at h
      exact absurd h.1 (by simp)
    · split at h
      · rename_i hcond
        simp at hcond
      · split at h
        · simp only [Option.some.injEq, Prod.mk.injEq] at h
          exact absurd h.1 (by simp)
        · rename_i enc p1 hle
          simp only [] at h
          split at h
          · exact Option.noConfusion h
          · rename_i cm hpd
            split at h
            · simp only [Option.some.injEq, Prod.mk.injEq] at h
              exact absurd h.1 (by simp)
            · rename_i embeddings henc
              split at h
              · simp only [Option.some.injEq, Prod.mk.injEq] at h
                exact absurd h.1 (by simp)
              · split at h
                · simp only [Option.some.injEq, Prod.mk.injEq] at h
                  exact absurd h.1 (by simp)
                · split at h
                  · simp only [Option.some.injEq, Prod.mk.injEq] at h
                    exact absurd h.1 (by simp)
                  · simp only [Option.some.injEq, Prod.mk.injEq] at h
                    obtain ⟨-, hdisk, hp⟩ := h
                    have hemb : embeddings = cm.1.map enc.f := by
                      unfold encodeBatch at henc
                      split at henc
                      · exact Option.noConfusion henc
                      · simp only [Option.some.injEq] at henc
                        exact henc.symm
                    have hencp1 := loadEncoderStep_some env p enc p1 hle
                    refine ⟨enc, ⟨(embeddings.head?.map env.dimOf).getD 0,
                      embeddings.map env.normalize⟩, ?_, ?_, ?_, ?_, ?_, ?_⟩
                    · rw [← hp]
                      exact hencp1.1
                    · rw [← hp]
                    · rw [← hp]
                      simp only [hemb, List.map_map]
                      rfl
                    · rw [← hp]
                      simp [hemb]
                    · rw [← hp]
                      have := processDocs_describes fuel cs ov (effectiveLawTexts files)
                        cm.1 cm.2 (by rw [hpd])
                      simpa using this.length_eq.symm
                    · rw [← hp]
                      exact processDocs_describes fuel cs ov (effectiveLawTexts files)
                        cm.1 cm.2 (by rw [hpd])
  · intro V env disk p b disk' p' h hb
    subst hb
    unfold loadExistingIndex at h
    cases hle : loadEncoderStep env p with
    | none =>
      rw [hle] at h
      exact absurd (congrArg Prod.fst h) (by simp)
    | some ep =>
      rw [hle] at h
      cases hidx : disk.indexFile with
      | none =>
        rw [hidx] at h
        exact absurd (congrArg Prod.fst h) (by simp)
      | some idx =>
        rw [hidx] at h
        cases hcm : disk.chunksFile with
        | none =>
          rw [hcm] at h
          exact absurd (congrArg Prod.fst h) (by simp)
        | some cm =>
          rw [hcm] at h
          simp only [Prod.mk.injEq] at h
          refine ⟨idx, cm.1, cm.2, rfl, rfl, ?_, ?_, ?_⟩ <;> rw [← h.2.2]

/-- The corpus of the C1 witness build. -/
def c1Files : List (List Char × List (Fin 256)) := [("a.txt".toList, [104, 105])]

/-- The index built by the witness run. -/
def c1ResultIdx : FaissIndex Nat := ⟨1, [7]⟩

/-- The pipeline state after the witness build. -/
def c1ResultPipe : RAGPipeline Nat :=
  ⟨some c1Enc, some c1ResultIdx, [['h', 'i']], [⟨"a.txt".toList, 0, 1, 2⟩]⟩

/-- The artifacts written by the witness build. -/
def c1ResultDisk : Disk Nat :=
  ⟨some c1ResultIdx, some ([['h', 'i']], [⟨"a.txt".toList, 0, 1, 2⟩])⟩

/-- Witness for the amended C1 at a concrete successful build. -/
theorem C1_positional_alignment_amended_witness :
    buildIndex c1Env (Disk.mk none none) (RAGPipeline.init Nat) c1Files 10 2 true 5 =
        some (true, c1ResultDisk, c1ResultPipe) ∧
      ∃ enc idx, c1ResultPipe.encoder = some enc ∧ c1ResultPipe.index = some idx ∧
        idx.vecs = c1ResultPipe.chunks.map (fun c => c1Env.normalize (enc.f c)) ∧
        idx.vecs.length = c1ResultPipe.chunks.length ∧
        c1ResultPipe.chunk_metadata.length = c1ResultPipe.chunks.length ∧
        List.Forall₂ (describesChunk 5 10 2 (effectiveLawTexts c1Files))
          c1ResultPipe.chunks c1ResultPipe.chunk_metadata :=
  ⟨rfl, C1_positional_alignment_amended.1 Nat c1Env ⟨none, none⟩ (RAGPipeline.init Nat)
    c1Files 10 2 5 c1ResultDisk c1ResultPipe rfl⟩
